import Mathlib

/-
Verification development for the goschtalt configuration-tree engine
(package meta: Object trees, key-command resolution and the merge engine).

The Go source is shallowly embedded:
- Go `map[string]Object` becomes an association list `List (String × Object)`;
  Go map assignment `m[k] = v` becomes `setKey` (update the existing binding,
  else append), and the nondeterministic Go map iteration order is
  determinized as the list order.
- Go functions returning `(Object, error)` become functions returning a pair
  of the Object and an `Option Err`, so that the tree returned alongside an
  error can be stated (Go returns the zero Object there).
- Go maps are reference values: inside `Object.merge` the assignments
  `obj.Map[cmd.final] = v` write into the very map the caller's base tree
  holds, so the caller observes the mutation.  `MergeOut.post` models the
  caller-visible state of the receiver after the call, derived by tracing
  the source: only the Map field can change (struct fields are copied by
  value, the map referent is shared).
-/

set_option autoImplicit false
set_option linter.unusedVariables false
set_option linter.unreachableTactic false
set_option linter.unusedTactic false
set_option linter.unnecessarySeqFocus false

namespace Gestalt

/-- Origin provides details about an origin of a parameter (file, line, col). -/
structure Origin where
  File : String
  Line : Int
  Col : Int
deriving DecidableEq, Repr

/-- Model of the Go type `any` restricted to the JSON-representable native
trees the decoders produce: nested `[]any` sequences, `map[string]any` maps
and scalar leaves (string, integer, boolean or nil). -/
inductive Any where
  | null : Any
  | str (s : String) : Any
  | int (n : Int) : Any
  | bool (b : Bool) : Any
  | arr (xs : List Any) : Any
  | map (xs : List (String × Any)) : Any
deriving Repr

/-- The three kinds of Object: Array, Map or Value (Go integer constants). -/
inductive Kind where
  | array : Kind
  | map : Kind
  | value : Kind
deriving DecidableEq, Repr

/-- Object represents either a map of objects, an array of objects or a
specific configuration value, plus the origins and the secret flag.
Go field order: Origins, Array, Map, Value, secret. -/
inductive Object where
  | mk (Origins : List Origin) (Array : List Object)
       (Map : List (String × Object)) (Value : Any) (secret : Bool) : Object
deriving Repr

/-- Accessor for the Origins field. -/
def Object.Origins : Object → List Origin
  | .mk o _ _ _ _ => o

/-- Accessor for the Array field. -/
def Object.Array : Object → List Object
  | .mk _ a _ _ _ => a

/-- Accessor for the Map field. -/
def Object.Map : Object → List (String × Object)
  | .mk _ _ m _ _ => m

/-- Accessor for the Value field. -/
def Object.Value : Object → Any
  | .mk _ _ _ v _ => v

/-- Accessor for the secret field. -/
def Object.secret : Object → Bool
  | .mk _ _ _ _ s => s

/-- Replace the secret field (models `rv.secret = b`). -/
def Object.setSecret : Object → Bool → Object
  | .mk o a m v _, b => .mk o a m v b

/-- Replace the Map field (models assignment through the shared map referent). -/
def Object.setMap : Object → List (String × Object) → Object
  | .mk o a _ v s, m => .mk o a m v s

/-- The zero Go value `Object{}`: nil slices and maps, nil value, false flag. -/
def Object.zero : Object := .mk [] [] [] .null false

/-- Kind of a pair of Array and Map fields: Array wins, then Map, else Value. -/
def kindOf (arr : List Object) (m : List (String × Object)) : Kind :=
  if 0 < arr.length then .array
  else if 0 < m.length then .map
  else .value

/-- Kind provides the specific kind of Object this is: Array, Map or Value,
with inspection priority Array over Map over Value. -/
def Object.Kind (o : Object) : Kind := kindOf o.Array o.Map

/-- Error taxonomy of the meta package. -/
inductive Err where
  | conflict : Err
  | invalidCommand : Err
  | notFound : Err
  | arrayOutOfBounds : Err
deriving DecidableEq, Repr

/-- The directive token constants of the meta package. -/
def cmdSecret : String := "secret"

/-- Directive token replace. -/
def cmdReplace : String := "replace"

/-- Directive token keep. -/
def cmdKeep : String := "keep"

/-- Directive token fail. -/
def cmdFail : String := "fail"

/-- Directive token append. -/
def cmdAppend : String := "append"

/-- Directive token prepend. -/
def cmdPrepend : String := "prepend"

/-- Directive token splice. -/
def cmdSplice : String := "splice"

/-- Directive token clear. -/
def cmdClear : String := "clear"

/-- A parsed key command: the final key text, the directive token (empty
string for none) and the secret marker. -/
structure command where
  final : String
  cmd : String
  secret : Bool
deriving DecidableEq, Repr

/-- The zero value `command{}`. -/
def command.zero : command := ⟨"", "", false⟩

/-- Split a character list at the first occurrence of two consecutive
opening parentheses, returning the text before and after the marker. -/
def splitParen : List Char → Option (List Char × List Char)
  | [] => none
  | ['('] => none
  | '(' :: '(' :: rest => some ([], rest)
  | c :: rest =>
    match splitParen rest with
    | none => none
    | some (pre, post) => some (c :: pre, post)

/-- Strip a trailing pair of closing parentheses, if the text ends in one. -/
def stripClose (cs : List Char) : Option (List Char) :=
  match cs.reverse with
  | ')' :: ')' :: rest => some rest.reverse
  | _ => none

/-- Split a character list on commas. -/
def splitCommas : List Char → List (List Char)
  | [] => [[]]
  | ',' :: rest => [] :: splitCommas rest
  | c :: rest =>
    match splitCommas rest with
    | [] => [[c]]
    | t :: ts => (c :: t) :: ts

/-- Drop leading and trailing spaces from a character list. -/
def trimSpaces (cs : List Char) : List Char :=
  ((cs.dropWhile (· = ' ')).reverse.dropWhile (· = ' ')).reverse

/-- Whether a token is one of the recognized directive tokens. -/
def isDirective (t : String) : Bool :=
  t = cmdReplace || t = cmdKeep || t = cmdFail || t = cmdAppend ||
    t = cmdPrepend || t = cmdSplice || t = cmdClear

/-- Fold the parsed tokens of a key onto a command: the secret marker sets
the secret flag, a recognized directive token becomes the directive, and any
other token is an invalid command. -/
def applyToks : List String → command → Except Err command
  | [], c => .ok c
  | t :: ts, c =>
    if t = cmdSecret then applyToks ts { c with secret := true }
    else if isDirective t then applyToks ts { c with cmd := t }
    else .error .invalidCommand

/-- Modelled from the spec: `getCmd` lives in a source file of the meta
package that is not present under src (only its callers are).  Per the spec,
a map key encodes a final key plus directive and secret tokens; the textual
convention modelled here is the one visible in the spec examples, such as
`pass((secret))` and `a((replace))`: a trailing double-parenthesized,
comma-separated token list after the final key text.  Recognized tokens are
the seven directives and the distinct secret marker; an unrecognized token
fails with InvalidCommand.  A key without a well-formed trailing token list
is a plain key with no directive. -/
def getCmd (key : String) : Except Err command :=
  match splitParen key.toList with
  | none => .ok ⟨key, "", false⟩
  | some (pre, post) =>
    match stripClose post with
    | none => .ok ⟨key, "", false⟩
    | some inner =>
      applyToks (((splitCommas inner).map trimSpaces).map List.asString)
        ⟨pre.asString, "", false⟩

/-- The directives legal for each kind, as in the validation table. -/
def legalCmds : Kind → List String
  | .map => ["", cmdFail, cmdKeep, cmdReplace, cmdSplice]
  | .array => ["", cmdFail, cmdKeep, cmdReplace, cmdAppend, cmdPrepend]
  | .value => ["", cmdFail, cmdKeep, cmdReplace]

/-- getValidCmd gets the command from the key string and validates that it
is supported for the kind of the given object. -/
def getValidCmd (key : String) (obj : Object) : Except Err command :=
  match getCmd key with
  | .error e => .error e
  | .ok cmd =>
    if cmd.cmd ∈ legalCmds obj.Kind then .ok cmd
    else .error .invalidCommand

/-- Go map assignment `m[k] = v` on the association-list model: replace the
existing binding for the key, else append the new binding. -/
def setKey : List (String × Object) → String → Object → List (String × Object)
  | [], k, v => [(k, v)]
  | (k0, v0) :: rest, k, v =>
    if k0 = k then (k, v) :: rest else (k0, v0) :: setKey rest k v

/-- Go map lookup `m[k]` on the association-list model. -/
def getVal : List (String × Object) → String → Option Object
  | [], _ => none
  | (k0, v0) :: rest, k => if k0 = k then some v0 else getVal rest k

mutual

/-- resolveCommands builds a copy of the tree where the commands have been
resolved from the keys; nodes named by a secret-marked key become secret.
On error the Go code returns the zero Object and the error. -/
def Object.resolveCommands (o : Object) (secret : Bool) : Object × Option Err :=
  let s' := o.secret || secret
  if o.Kind = Kind.array then
    let r := resolveArray o.Array
    if r.2.isSome then (Object.zero, r.2)
    else (.mk o.Origins r.1 o.Map o.Value s', none)
  else if o.Kind = Kind.map then
    let r := resolveMap o.Map []
    if r.2.isSome then (Object.zero, r.2)
    else (.mk o.Origins o.Array r.1 o.Value s', none)
  else (.mk o.Origins o.Array o.Map o.Value s', none)
termination_by sizeOf o
decreasing_by all_goals
  (cases o with
   | mk a b c d e => simp [Object.Array, Object.Map]; try omega)

/-- The Array loop of resolveCommands: each element is resolved with the
secret argument false; any error aborts. -/
def resolveArray : List Object → List Object × Option Err
  | [] => ([], none)
  | x :: xs =>
    match x.resolveCommands false with
    | (_, some e) => ([], some e)
    | (x', none) =>
      match resolveArray xs with
      | (_, some e) => ([], some e)
      | (xs', none) => (x' :: xs', none)
termination_by xs => sizeOf xs
decreasing_by all_goals (simp; try omega)

/-- The Map loop of resolveCommands: each key is parsed and validated
against the kind of its value, the subtree is resolved with the secret flag
of the command, and the result is stored under the final key in a fresh map. -/
def resolveMap : List (String × Object) → List (String × Object) →
    List (String × Object) × Option Err
  | [], acc => (acc, none)
  | (key, val) :: rest, acc =>
    match getValidCmd key val with
    | .error e => ([], some e)
    | .ok cmd =>
      match val.resolveCommands cmd.secret with
      | (_, some e) => ([], some e)
      | (val', none) => resolveMap rest (setKey acc cmd.final val')
termination_by xs acc => sizeOf xs
decreasing_by all_goals (simp; try omega)

end

/-- The result of a merge call: the returned tree, the returned error (the
Go code returns the zero Object alongside every error) and the
caller-visible state of the receiver after the call.  The receiver state can
change because Go maps are shared by reference and the merge writes into the
Map of the base tree in place. -/
structure MergeOut where
  res : Object
  err : Option Err
  post : Object
deriving Repr

mutual

/-- merge does the actual merging of the trees, transcribed from the source
switch by switch; the receiver field assignments that land in the shared Go
map are threaded through spliceLoop, and `post` records the caller-visible
receiver after the call. -/
def Object.merge (obj : Object) (cmd : command) (next : Object) : MergeOut :=
  if obj.Kind = Kind.value then
    if cmd.cmd = cmdReplace ∨ cmd.cmd = "" then
      { res := next.setSecret cmd.secret, err := none, post := obj }
    else if cmd.cmd = cmdKeep then
      { res := obj.setSecret cmd.secret, err := none, post := obj }
    else if cmd.cmd = cmdFail then
      { res := Object.zero, err := some .conflict, post := obj }
    else
      { res := obj.setSecret cmd.secret, err := none, post := obj }
  else if obj.Kind = Kind.array then
    let r := next.resolveCommands obj.secret
    if r.2.isSome then { res := Object.zero, err := r.2, post := obj }
    else
      let nr := r.1
      if cmd.cmd = cmdAppend ∨ cmd.cmd = "" then
        { res := .mk (obj.Origins ++ nr.Origins) (obj.Array ++ nr.Array)
            obj.Map obj.Value (obj.secret || nr.secret || cmd.secret),
          err := none, post := obj }
      else if cmd.cmd = cmdPrepend then
        { res := .mk (nr.Origins ++ obj.Origins) (nr.Array ++ obj.Array)
            obj.Map obj.Value (obj.secret || nr.secret || cmd.secret),
          err := none, post := obj }
      else if cmd.cmd = cmdReplace then
        { res := nr, err := none, post := obj }
      else if cmd.cmd = cmdKeep then
        { res := obj, err := none, post := obj }
      else if cmd.cmd = cmdFail then
        { res := Object.zero, err := some .conflict, post := obj }
      else
        { res := obj, err := none, post := obj }
  else
    if cmd.cmd = cmdSplice ∨ cmd.cmd = "" then
      spliceLoop obj cmd obj.Map next.Map
    else if cmd.cmd = cmdReplace then
      let r := next.resolveCommands false
      if r.2.isSome then { res := Object.zero, err := r.2, post := obj }
      else { res := r.1.setSecret cmd.secret, err := none, post := obj }
    else if cmd.cmd = cmdKeep then
      { res := obj.setSecret cmd.secret, err := none, post := obj }
    else if cmd.cmd = cmdFail then
      { res := Object.zero, err := some .conflict, post := obj }
    else
      { res := obj.setSecret cmd.secret, err := none, post := obj }
termination_by sizeOf next
decreasing_by all_goals
  (cases next with
   | mk a b c d e => simp [Object.Map]; try omega)

/-- The Map splice loop of merge: iterates the incoming entries, writing the
merged values into the shared base map `m`; an error aborts with the zero
result, leaving the writes made so far visible to the caller. -/
def spliceLoop (obj : Object) (cmd : command) (m : List (String × Object)) :
    List (String × Object) → MergeOut
  | [] =>
    { res := (obj.setMap m).setSecret cmd.secret, err := none,
      post := obj.setMap m }
  | (key, val) :: rest =>
    match getValidCmd key val with
    | .error e => { res := Object.zero, err := some e, post := obj.setMap m }
    | .ok newCmd =>
      match getVal m newCmd.final with
      | none =>
        match val.resolveCommands newCmd.secret with
        | (_, some e) =>
          { res := Object.zero, err := some e, post := obj.setMap m }
        | (v', none) => spliceLoop obj cmd (setKey m newCmd.final v') rest
      | some existing =>
        if existing.Kind = val.Kind then
          match existing.merge newCmd val with
          | out =>
            match out.err with
            | some e =>
              { res := Object.zero, err := some e,
                post := obj.setMap (setKey m newCmd.final out.post) }
            | none => spliceLoop obj cmd (setKey m newCmd.final out.res) rest
        else
          if newCmd.cmd = cmdSplice ∨ newCmd.cmd = cmdReplace ∨
              newCmd.cmd = "" then
            match val.resolveCommands newCmd.secret with
            | (_, some e) =>
              { res := Object.zero, err := some e, post := obj.setMap m }
            | (v', none) => spliceLoop obj cmd (setKey m newCmd.final v') rest
          else if newCmd.cmd = cmdKeep then
            spliceLoop obj cmd (setKey m newCmd.final existing) rest
          else if newCmd.cmd = cmdFail then
            { res := Object.zero, err := some .conflict,
              post := obj.setMap m }
          else
            spliceLoop obj cmd m rest
termination_by entries => sizeOf entries
decreasing_by all_goals (simp; try omega)

end

/-- Result of the clear-directive scan at the top of Merge. -/
inductive ScanRes where
  | clean : ScanRes
  | found : ScanRes
  | failed (e : Err) : ScanRes
deriving DecidableEq, Repr

/-- The scan at the top of Merge over the direct Map keys of the incoming
tree: a key that fails to parse aborts with its error, a key whose directive
is clear short-circuits, otherwise the scan is clean. -/
def scanClear : List (String × Object) → ScanRes
  | [] => .clean
  | (k, _) :: rest =>
    match getCmd k with
    | .error e => .failed e
    | .ok c => if c.cmd = cmdClear then .found else scanClear rest

/-- Merge performs a merge of the new Object tree onto the existing Object
tree: if any direct incoming key carries the clear directive the result is
an Object holding only an empty Origins list, otherwise the recursive merge
runs with the zero command. -/
def Object.Merge (obj next : Object) : MergeOut :=
  match scanClear next.Map with
  | .failed e => { res := Object.zero, err := some e, post := obj }
  | .found => { res := .mk [] [] [] .null false, err := none, post := obj }
  | .clean => obj.merge command.zero next

mutual

/-- ToRaw converts an Object tree into a native go tree, with no secret or
origin history. -/
def Object.ToRaw (o : Object) : Any :=
  if o.Kind = Kind.array then .arr (toRawArray o.Array)
  else if o.Kind = Kind.map then .map (toRawMap o.Map)
  else o.Value
termination_by sizeOf o
decreasing_by all_goals
  (cases o with
   | mk a b c d e => simp [Object.Array, Object.Map]; try omega)

/-- The Array loop of ToRaw. -/
def toRawArray : List Object → List Any
  | [] => []
  | x :: xs => x.ToRaw :: toRawArray xs
termination_by xs => sizeOf xs
decreasing_by all_goals (simp; try omega)

/-- The Map loop of ToRaw. -/
def toRawMap : List (String × Object) → List (String × Any)
  | [] => []
  | (k, v) :: rest => (k, v.ToRaw) :: toRawMap rest
termination_by xs => sizeOf xs
decreasing_by all_goals (simp; try omega)

end

mutual

/-- ObjectFromRaw converts a native go tree into the equivalent Object tree:
sequences become Array nodes, maps become Map nodes and anything else
becomes a Value leaf; every node gets an empty Origins list. -/
def ObjectFromRaw : Any → Object
  | .arr xs => .mk [] (fromRawArray xs) [] .null false
  | .map xs => .mk [] [] (fromRawMap xs []) .null false
  | v => .mk [] [] [] v false
termination_by r => sizeOf r
decreasing_by all_goals (simp; try omega)

/-- The Array loop of ObjectFromRaw. -/
def fromRawArray : List Any → List Object
  | [] => []
  | x :: xs => ObjectFromRaw x :: fromRawArray xs
termination_by xs => sizeOf xs
decreasing_by all_goals (simp; try omega)

/-- The Map loop of ObjectFromRaw, modelling Go map insertion per entry. -/
def fromRawMap : List (String × Any) → List (String × Object) →
    List (String × Object)
  | [], acc => acc
  | (k, v) :: rest, acc => fromRawMap rest (setKey acc k (ObjectFromRaw v))
termination_by xs acc => sizeOf xs
decreasing_by all_goals (simp; try omega)

end

/-- The kind-directed shape of a tree, following the words of the spec:
structural equality ignoring Origins and the secret flag compares the kind
at every node, the map keys, the array order and the leaf values.  Two trees
are structurally equal in that sense exactly when their shapes are equal. -/
inductive Shape where
  | arr (xs : List Shape) : Shape
  | map (xs : List (String × Shape)) : Shape
  | val (v : Any) : Shape
deriving Repr

mutual

/-- The shape of an Object: its kind-directed content without Origins and
secret metadata. -/
def Object.toShape (o : Object) : Shape :=
  if o.Kind = Kind.array then .arr (toShapeArray o.Array)
  else if o.Kind = Kind.map then .map (toShapeMap o.Map)
  else .val o.Value
termination_by sizeOf o
decreasing_by all_goals
  (cases o with
   | mk a b c d e => simp [Object.Array, Object.Map]; try omega)

/-- The Array loop of toShape. -/
def toShapeArray : List Object → List Shape
  | [] => []
  | x :: xs => x.toShape :: toShapeArray xs
termination_by xs => sizeOf xs
decreasing_by all_goals (simp; try omega)

/-- The Map loop of toShape. -/
def toShapeMap : List (String × Object) → List (String × Shape)
  | [] => []
  | (k, v) :: rest => (k, v.toShape) :: toShapeMap rest
termination_by xs => sizeOf xs
decreasing_by all_goals (simp; try omega)

end

mutual

/-- AlterKeyCase builds a copy of the tree where the keys for all Map
Objects have been converted using the given conversion function. -/
def Object.AlterKeyCase (o : Object) (tr : String → String) : Object :=
  if o.Kind = Kind.array then
    .mk o.Origins (alterArray o.Array tr) o.Map o.Value o.secret
  else if o.Kind = Kind.map then
    .mk o.Origins o.Array (alterMap o.Map tr []) o.Value o.secret
  else o
termination_by sizeOf o
decreasing_by all_goals
  (cases o with
   | mk a b c d e => simp [Object.Array, Object.Map]; try omega)

/-- The Array loop of AlterKeyCase. -/
def alterArray : List Object → (String → String) → List Object
  | [], _ => []
  | x :: xs, tr => x.AlterKeyCase tr :: alterArray xs tr
termination_by xs tr => sizeOf xs
decreasing_by all_goals (simp; try omega)

/-- The Map loop of AlterKeyCase: a fresh map is built with the converted
keys, modelling Go map insertion per entry. -/
def alterMap : List (String × Object) → (String → String) →
    List (String × Object) → List (String × Object)
  | [], _, acc => acc
  | (k, v) :: rest, tr, acc =>
    alterMap rest tr (setKey acc (tr k) (v.AlterKeyCase tr))
termination_by xs tr acc => sizeOf xs
decreasing_by all_goals (simp; try omega)

end

/-- Modelled from the spec: the AlterKeyCase Option of the orchestrator
package (its source file is not under src; the always-present option list
installs `AlterKeyCase(nil)`) must tolerate a nil transform as a no-op, so a
missing transform is replaced by the identity before the tree method runs. -/
def alterKeyCaseOption (tr : Option (String → String)) (obj : Object) :
    Object :=
  obj.AlterKeyCase (tr.getD (fun s => s))

/-- Whether a list of keys avoids a given key. -/
def keyAbsent (k : String) : List (String × Object) → Bool
  | [] => true
  | (k0, _) :: rest => !(k0 = k : Bool) && keyAbsent k rest

/-- Whether the keys of an association list are pairwise distinct, as the
keys of any Go map are. -/
def noDupKeys : List (String × Object) → Bool
  | [] => true
  | (k, _) :: rest => keyAbsent k rest && noDupKeys rest

mutual

/-- Whether a tree is Go-map representable: every Map association list in it
has pairwise distinct keys.  Trees decoded from Go values always are, since
a Go map cannot bind one key twice. -/
def Object.WF (o : Object) : Bool :=
  wfArray o.Array && wfMap o.Map && noDupKeys o.Map
termination_by sizeOf o
decreasing_by all_goals
  (cases o with
   | mk a b c d e => simp [Object.Array, Object.Map]; try omega)

/-- The Array loop of Object.WF. -/
def wfArray : List Object → Bool
  | [] => true
  | x :: xs => x.WF && wfArray xs
termination_by xs => sizeOf xs
decreasing_by all_goals (simp; try omega)

/-- The Map loop of Object.WF. -/
def wfMap : List (String × Object) → Bool
  | [] => true
  | (_, v) :: rest => v.WF && wfMap rest
termination_by xs => sizeOf xs
decreasing_by all_goals (simp; try omega)

end

/-- Whether every direct Map key of a tree parses to a command whose
directive is not clear; this mirrors the clear scan of Merge ending clean. -/
def keysParseNoClear : List (String × Object) → Bool
  | [] => true
  | (k, _) :: rest =>
    (match getCmd k with
     | .ok c => !(c.cmd = cmdClear : Bool)
     | .error _ => false) && keysParseNoClear rest

/-- Whether every direct Map key of a tree parses to a command. -/
def keysParse : List (String × Object) → Bool
  | [] => true
  | (k, _) :: rest =>
    (match getCmd k with
     | .ok _ => true
     | .error _ => false) && keysParse rest

/-- Whether some direct Map key parses to the clear directive. -/
def hasClearKey : List (String × Object) → Bool
  | [] => false
  | (k, _) :: rest =>
    (match getCmd k with
     | .ok c => (c.cmd = cmdClear : Bool)
     | .error _ => false) || hasClearKey rest

/-- Whether a list of raw map entries avoids a given key. -/
def keyAbsentA (k : String) : List (String × Any) → Bool
  | [] => true
  | (k0, _) :: rest => !(k0 = k : Bool) && keyAbsentA k rest

/-- Whether the keys of a raw map entry list are pairwise distinct, as the
keys of any native Go map are. -/
def noDupKeysA : List (String × Any) → Bool
  | [] => true
  | (k, _) :: rest => keyAbsentA k rest && noDupKeysA rest

/-- A Value leaf holding an integer, used in the concrete scenarios. -/
def leaf (n : Int) : Object := .mk [] [] [] (.int n) false

/-- A one-entry Map node, used in the concrete scenarios. -/
def mapOne (k : String) (o : Object) : Object := .mk [] [] [(k, o)] .null false

/-- A Map-kind value used in the kind-mismatch scenarios. -/
def mVal : Object := mapOne "x" (leaf 1)

/-- An Array-kind value used in the kind-mismatch scenarios. -/
def aVal : Object := .mk [] [leaf 2] [] .null false

/-- The Origins field of a constructed Object. -/
@[simp] theorem Origins_mk (o : List Origin) (a : List Object)
    (m : List (String × Object)) (v : Any) (s : Bool) :
    (Object.mk o a m v s).Origins = o := rfl

/-- The Array field of a constructed Object. -/
@[simp] theorem Array_mk (o : List Origin) (a : List Object)
    (m : List (String × Object)) (v : Any) (s : Bool) :
    (Object.mk o a m v s).Array = a := rfl

/-- The Map field of a constructed Object. -/
@[simp] theorem Map_mk (o : List Origin) (a : List Object)
    (m : List (String × Object)) (v : Any) (s : Bool) :
    (Object.mk o a m v s).Map = m := rfl

/-- The Value field of a constructed Object. -/
@[simp] theorem Value_mk (o : List Origin) (a : List Object)
    (m : List (String × Object)) (v : Any) (s : Bool) :
    (Object.mk o a m v s).Value = v := rfl

/-- The secret field of a constructed Object. -/
@[simp] theorem secret_mk (o : List Origin) (a : List Object)
    (m : List (String × Object)) (v : Any) (s : Bool) :
    (Object.mk o a m v s).secret = s := rfl

/-- setSecret on a constructed Object. -/
@[simp] theorem setSecret_mk (o : List Origin) (a : List Object)
    (m : List (String × Object)) (v : Any) (s b : Bool) :
    (Object.mk o a m v s).setSecret b = .mk o a m v b := rfl

/-- setMap on a constructed Object. -/
@[simp] theorem setMap_mk (o : List Origin) (a : List Object)
    (m m2 : List (String × Object)) (v : Any) (s : Bool) :
    (Object.mk o a m v s).setMap m2 = .mk o a m2 v s := rfl

/-- Replacing the Map of an Object by its own Map is the identity. -/
@[simp] theorem setMap_self (o : Object) : o.setMap o.Map = o := by
  cases o <;> rfl

/-- A clean clear scan when every key parses to a non-clear command. -/
theorem scanClear_of_keysParseNoClear :
    ∀ l, keysParseNoClear l = true → scanClear l = .clean := by
  intro l h
  induction l with
  | nil => rfl
  | cons p rest ih =>
    obtain ⟨k, v⟩ := p
    rcases hg : getCmd k with e | c
    · simp [keysParseNoClear, hg] at h
    · simp only [keysParseNoClear, hg, Bool.and_eq_true, Bool.not_eq_eq_eq_not,
        Bool.not_true, decide_eq_false_iff_not] at h
      simp only [scanClear, hg]
      rw [if_neg h.1]
      exact ih h.2

/-- The clear scan finds a clear key when every key parses and some key
carries the clear directive. -/
theorem scanClear_of_hasClearKey :
    ∀ l, keysParse l = true → hasClearKey l = true → scanClear l = .found := by
  intro l hp hc
  induction l with
  | nil => simp [hasClearKey] at hc
  | cons p rest ih =>
    obtain ⟨k, v⟩ := p
    rcases hg : getCmd k with e | c
    · simp [keysParse, hg] at hp
    · simp only [hasClearKey, hg, Bool.or_eq_true, decide_eq_true_eq] at hc
      simp only [keysParse, hg, Bool.true_and] at hp
      simp only [scanClear, hg]
      by_cases hcl : c.cmd = cmdClear
      · rw [if_pos hcl]
      · rw [if_neg hcl]
        rcases hc with hc | hc
        · exact absurd hc hcl
        · exact ih hp hc

/-- Every error exit of the splice loop returns the zero Object as the
result tree. -/
theorem spliceLoop_res_of_err :
    ∀ (entries : List (String × Object)) (obj : Object) (cmd : command)
      (m : List (String × Object)),
      ((spliceLoop obj cmd m entries).err).isSome →
      (spliceLoop obj cmd m entries).res = Object.zero := by
  intro entries
  induction entries with
  | nil => intro obj cmd m h; simp [spliceLoop] at h
  | cons p rest ih =>
    intro obj cmd m h
    obtain ⟨key, val⟩ := p
    rcases hg : getValidCmd key val with e | newCmd <;>
      simp only [spliceLoop, hg] at h ⊢
    rcases hv : getVal m newCmd.final with _ | existing <;>
      simp only [hv] at h ⊢
    · rcases hr : val.resolveCommands newCmd.secret with ⟨v', e?⟩
      rcases e? with _ | e <;> simp only [hr] at h ⊢
      exact ih _ _ _ h
    · by_cases hk : existing.Kind = val.Kind
      · rw [if_pos hk] at h ⊢
        rcases hm : existing.merge newCmd val with ⟨r0, e?, p0⟩
        rcases e? with _ | e <;> simp only [hm] at h ⊢
        exact ih _ _ _ h
      · rw [if_neg hk] at h ⊢
        by_cases h1 : newCmd.cmd = cmdSplice ∨ newCmd.cmd = cmdReplace ∨
            newCmd.cmd = ""
        · rw [if_pos h1] at h ⊢
          rcases hr : val.resolveCommands newCmd.secret with ⟨v', e?⟩
          rcases e? with _ | e <;> simp only [hr] at h ⊢
          exact ih _ _ _ h
        · rw [if_neg h1] at h ⊢
          by_cases h2 : newCmd.cmd = cmdKeep
          · rw [if_pos h2] at h ⊢
            exact ih _ _ _ h
          · rw [if_neg h2] at h ⊢
            by_cases h3 : newCmd.cmd = cmdFail
            · rw [if_pos h3] at h ⊢
            · rw [if_neg h3] at h ⊢
              exact ih _ _ _ h

/-- Every error exit of merge returns the zero Object as the result tree. -/
theorem merge_res_of_err :
    ∀ (obj : Object) (cmd : command) (next : Object),
      ((obj.merge cmd next).err).isSome →
      (obj.merge cmd next).res = Object.zero := by
  intro obj cmd next h
  rcases hk : obj.Kind with _ | _ | _ <;>
    simp only [Object.merge, hk, reduceCtorEq, if_false, if_true,
      reduceIte] at h ⊢
  · -- array kind
    rcases hr : next.resolveCommands obj.secret with ⟨nr, e?⟩
    rcases e? with _ | e
    · split at h <;> simp_all <;> try (split at h <;> simp_all)
      all_goals try (split at h <;> simp_all)
      all_goals try (split at h <;> simp_all)
      all_goals try (split at h <;> simp_all)
      all_goals try (split at h <;> simp_all)
    · split at h <;> simp_all
  · -- map kind
    by_cases h1 : cmd.cmd = cmdSplice ∨ cmd.cmd = ""
    · rw [if_pos h1] at h ⊢
      exact spliceLoop_res_of_err _ _ _ _ h
    · rw [if_neg h1] at h ⊢
      rcases hr : next.resolveCommands false with ⟨nr, e?⟩
      rcases e? with _ | e
      · split at h <;> simp_all <;> try (split at h <;> simp_all)
        all_goals try (split at h <;> simp_all)
        all_goals try (split at h <;> simp_all)
      · split at h <;> simp_all <;> try (split at h <;> simp_all)
        all_goals try (split at h <;> simp_all)
        all_goals try (split at h <;> simp_all)
  · -- value kind
    split at h <;> simp_all <;> try (split at h <;> simp_all)
    all_goals try (split at h <;> simp_all)
    all_goals try (split at h <;> simp_all)
/-- Every error exit of Merge returns the zero Object as the result tree. -/
theorem Merge_res_of_err :
    ∀ (obj next : Object), ((obj.Merge next).err).isSome →
      (obj.Merge next).res = Object.zero := by
  intro obj next h
  rcases hs : scanClear next.Map with _ | _ | e <;>
    simp only [Object.Merge, hs] at h ⊢
  · exact merge_res_of_err _ _ _ h
  · simp at h

/-- resolveCommands of the zero Object returns the zero Object with the
inherited secret flag and no error. -/
theorem resolveCommands_zero (b : Bool) :
    Object.zero.resolveCommands b = (.mk [] [] [] .null b, none) := by
  simp [Object.resolveCommands, Object.zero, Object.Kind, kindOf, Object.secret,
    Object.Origins, Object.Array, Object.Map, Object.Value]

/-- C1: the spec claims Merge(t, emptyTree) = t for every tree t.  The code
refutes this for a Value-kind tree: merging the empty incoming tree onto a
Value leaf replaces the leaf with the empty tree. -/
theorem merge_empty_identity_counterexample :
    ((Object.mk [] [] [] (.int 5) false).Merge Object.zero).res ≠
      .mk [] [] [] (.int 5) false := by
  simp [Object.Merge, scanClear, Object.zero, Object.Map, Object.merge, kindOf,
    command.zero, Object.Kind, Object.Array, Object.setSecret, cmdReplace,
    cmdKeep, cmdFail]

/-- C1 amended: Merge(t, emptyTree) succeeds with no error and returns t
itself when t is Array-kind, t with the root secret flag reset to false when
t is Map-kind, and the empty tree when t is Value-kind; the base tree is
left unchanged. -/
theorem merge_empty_identity_amended (t : Object) :
    (t.Kind = Kind.array →
      t.Merge Object.zero = ⟨t, none, t⟩) ∧
    (t.Kind = Kind.map →
      t.Merge Object.zero = ⟨t.setSecret false, none, t⟩) ∧
    (t.Kind = Kind.value →
      t.Merge Object.zero = ⟨Object.zero, none, t⟩) := by
  refine ⟨?_, ?_, ?_⟩ <;> intro hk <;>
    simp only [Object.Merge, Object.zero, Object.Map, scanClear] <;>
    simp only [Object.merge, hk, reduceCtorEq, if_false, if_true, reduceIte]
  · have hr := resolveCommands_zero t.secret
    simp only [Object.zero] at hr
    rw [hr]
    simp only [command.zero, cmdAppend, Option.isSome_none, Bool.false_eq_true,
      if_false, reduceIte, reduceCtorEq]
    cases t with
    | mk o a m v s =>
      simp [Object.Origins, Object.Array, Object.Map, Object.Value,
        Object.secret]
  · simp [command.zero, cmdSplice, spliceLoop, setMap_self]
  · simp [command.zero, cmdReplace, Object.setSecret, Object.zero]

/-- C1 witness: at a concrete Array-kind tree the amended claim evaluates to
the tree itself. -/
theorem merge_empty_identity_witness :
    (Object.mk [] [leaf 7] [] .null true).Merge Object.zero =
      ⟨.mk [] [leaf 7] [] .null true, none, .mk [] [leaf 7] [] .null true⟩ :=
  (merge_empty_identity_amended _).1 (by decide)

/-- C5: merging a base Map with key k holding a Value against an incoming
Map whose key k carries the fail directive returns Conflict, and the tree
returned alongside the error is the zero Object; in general every merge
error returns the zero Object, never a partial result. -/
theorem fail_directive_conflict_zero :
    ((Object.mk [] [] [("k", leaf 1)] .null false).Merge
      (.mk [] [] [("k((fail))", leaf 2)] .null false)) =
      ⟨Object.zero, some .conflict, .mk [] [] [("k", leaf 1)] .null false⟩ ∧
    ∀ (b n : Object), ((b.Merge n).err).isSome →
      (b.Merge n).res = Object.zero := by
  constructor
  · simp [Object.Merge, scanClear, Object.Map, Object.merge, kindOf,
      command.zero, spliceLoop, getValidCmd, legalCmds, Object.Kind, getVal,
      setKey, Object.setMap, Object.Array, leaf, cmdClear, cmdReplace, cmdKeep,
      cmdFail, cmdSplice, cmdAppend, cmdPrepend, cmdSecret, Object.setSecret,
      show getCmd "k((fail))" = Except.ok ⟨"k", "fail", false⟩ from rfl]
  · exact Merge_res_of_err

/-- C5 witness: the general zero-on-error clause applied at a concrete
erroring merge. -/
theorem fail_directive_conflict_zero_witness :
    ((Object.mk [] [] [("q", leaf 3)] .null false).Merge
      (.mk [] [] [("q((fail))", leaf 4)] .null false)).res = Object.zero :=
  fail_directive_conflict_zero.2 _ _ (by
    simp [Object.Merge, scanClear, Object.Map, Object.merge, kindOf,
      command.zero, spliceLoop, getValidCmd, legalCmds, Object.Kind, getVal,
      setKey, Object.setMap, Object.Array, leaf, cmdClear, cmdReplace, cmdKeep,
      cmdFail, cmdSplice, cmdAppend, cmdPrepend, cmdSecret, Object.setSecret,
      show getCmd "q((fail))" = Except.ok ⟨"q", "fail", false⟩ from rfl])

/-- C2: the spec claims a Map-against-Array kind mismatch with no directive
fails with InvalidCommand.  The code refutes this: with no directive the
merge succeeds and takes the resolved incoming value. -/
theorem kind_mismatch_default_counterexample :
    ((Object.mk [] [] [("k", mVal)] .null false).Merge
      (.mk [] [] [("k", aVal)] .null false)).err = none ∧
    ((Object.mk [] [] [("k", mVal)] .null false).Merge
      (.mk [] [] [("k", aVal)] .null false)).res.Map = [("k", aVal)] := by
  constructor <;>
    simp [Object.Merge, scanClear, Object.Map, Object.merge, kindOf,
      command.zero, spliceLoop, getValidCmd, legalCmds, Object.Kind, getVal,
      setKey, Object.setMap, Object.Array, Object.Origins, Object.Value,
      Object.secret, Object.setSecret, leaf, mapOne, mVal, aVal, cmdClear,
      cmdReplace, cmdKeep, cmdFail, cmdSplice, cmdAppend, cmdPrepend,
      cmdSecret, Object.resolveCommands, resolveArray, resolveMap, Object.zero,
      show getCmd "k" = Except.ok ⟨"k", "", false⟩ from rfl]

/-- C2 amended: during a Map splice merge, for any key held in base with a
Map-kind value and sent in incoming with an Array-kind value, no directive
and replace succeed taking the resolved incoming value, keep succeeds
retaining the base value, fail returns Conflict, and splice is rejected with
InvalidCommand by the kind validation against the incoming value. -/
theorem kind_mismatch_default_policy_amended (base av bv ar : Object)
    (k kd : String) (hbk : base.Kind = Kind.map)
    (hb : getVal base.Map k = some bv) (hbv : bv.Kind = Kind.map)
    (hav : av.Kind = Kind.array)
    (hres : av.resolveCommands false = (ar, none)) :
    (getCmd kd = .ok ⟨k, "", false⟩ →
      base.merge command.zero (.mk [] [] [(kd, av)] .null false) =
        ⟨(base.setMap (setKey base.Map k ar)).setSecret false, none,
         base.setMap (setKey base.Map k ar)⟩) ∧
    (getCmd kd = .ok ⟨k, cmdReplace, false⟩ →
      base.merge command.zero (.mk [] [] [(kd, av)] .null false) =
        ⟨(base.setMap (setKey base.Map k ar)).setSecret false, none,
         base.setMap (setKey base.Map k ar)⟩) ∧
    (getCmd kd = .ok ⟨k, cmdKeep, false⟩ →
      base.merge command.zero (.mk [] [] [(kd, av)] .null false) =
        ⟨(base.setMap (setKey base.Map k bv)).setSecret false, none,
         base.setMap (setKey base.Map k bv)⟩) ∧
    (getCmd kd = .ok ⟨k, cmdFail, false⟩ →
      base.merge command.zero (.mk [] [] [(kd, av)] .null false) =
        ⟨Object.zero, some .conflict, base⟩) ∧
    (getCmd kd = .ok ⟨k, cmdSplice, false⟩ →
      base.merge command.zero (.mk [] [] [(kd, av)] .null false) =
        ⟨Object.zero, some .invalidCommand, base⟩) := by
  refine ⟨?_, ?_, ?_, ?_, ?_⟩ <;> intro hkd <;>
    simp only [Object.merge, hbk, reduceCtorEq, if_false, if_true, reduceIte,
      show command.zero.cmd = "" from rfl, or_true, Map_mk] <;>
    simp only [spliceLoop,
      show getValidCmd kd av = getValidCmd kd av from rfl]
  · have h1 : getValidCmd kd av = .ok ⟨k, "", false⟩ := by
      simp [getValidCmd, hkd, hav, legalCmds]
    simp only [h1, hb, hbv, hav, reduceCtorEq, if_false, reduceIte, hres,
      spliceLoop]
    simp [command.zero, cmdSplice, cmdReplace, cmdKeep, cmdFail]
  · have h1 : getValidCmd kd av = .ok ⟨k, cmdReplace, false⟩ := by
      simp [getValidCmd, hkd, hav, legalCmds, cmdReplace]
    simp only [h1, hb, hbv, hav, reduceCtorEq, if_false, reduceIte, hres,
      spliceLoop]
    simp [command.zero, cmdReplace, cmdSplice, cmdKeep, cmdFail]
  · have h1 : getValidCmd kd av = .ok ⟨k, cmdKeep, false⟩ := by
      simp [getValidCmd, hkd, hav, legalCmds, cmdKeep]
    simp only [h1, hb, hbv, hav, reduceCtorEq, if_false, reduceIte,
      spliceLoop]
    simp [command.zero, cmdReplace, cmdSplice, cmdKeep, cmdFail]
  · have h1 : getValidCmd kd av = .ok ⟨k, cmdFail, false⟩ := by
      simp [getValidCmd, hkd, hav, legalCmds, cmdFail]
    simp only [h1, hb, hbv, hav, reduceCtorEq, if_false, reduceIte,
      spliceLoop]
    simp [command.zero, cmdReplace, cmdSplice, cmdKeep, cmdFail, setMap_self]
  · have h1 : getValidCmd kd av = .error .invalidCommand := by
      simp [getValidCmd, hkd, hav, legalCmds, cmdSplice, cmdFail, cmdKeep,
        cmdReplace, cmdAppend, cmdPrepend]
    simp only [h1, setMap_self]

/-- C2 witness: the no-directive kind mismatch at concrete trees takes the
incoming array value with no error. -/
theorem kind_mismatch_default_policy_witness :
    (Object.mk [] [] [("k", mVal)] .null false).merge command.zero
      (.mk [] [] [("k", aVal)] .null false) =
      ⟨.mk [] [] [("k", aVal)] .null false, none,
       .mk [] [] [("k", aVal)] .null false⟩ := by
  have h := (kind_mismatch_default_policy_amended
    (.mk [] [] [("k", mVal)] .null false) aVal mVal aVal "k" "k"
    (by decide)
    (by simp [getVal, Object.Map])
    (by decide) (by decide)
    (by simp [Object.resolveCommands, resolveArray, Object.Kind, kindOf,
      aVal, leaf, Object.Array, Object.Map, Object.Origins, Object.Value,
      Object.secret])).1 rfl
  simpa [Object.Map, Object.setMap, Object.setSecret, setKey, mVal, aVal,
    leaf, mapOne] using h

/-- C3: the spec claims that at a kind mismatch any directive other than
replace, none, keep, or fail makes the merge return an error.  The code
refutes this: append at a Map-against-Array mismatch is silently skipped,
the merge succeeds and keeps the base value. -/
theorem kind_mismatch_other_directive_counterexample :
    ((Object.mk [] [] [("k", mVal)] .null false).Merge
      (.mk [] [] [("k((append))", aVal)] .null false)).err = none ∧
    ((Object.mk [] [] [("k", mVal)] .null false).Merge
      (.mk [] [] [("k((append))", aVal)] .null false)).res.Map =
      [("k", mVal)] := by
  constructor <;>
    simp [Object.Merge, scanClear, Object.Map, Object.merge, kindOf,
      command.zero, spliceLoop, getValidCmd, legalCmds, Object.Kind, getVal,
      setKey, Object.setMap, Object.Array, Object.Origins, Object.Value,
      Object.secret, Object.setSecret, leaf, mapOne, mVal, aVal, cmdClear,
      cmdReplace, cmdKeep, cmdFail, cmdSplice, cmdAppend, cmdPrepend,
      cmdSecret, Object.resolveCommands, resolveArray, resolveMap, Object.zero,
      show getCmd "k((append))" = Except.ok ⟨"k", "append", false⟩ from rfl]

/-- C3 amended: during a Map splice merge, for any key held in base with a
Map-kind value and sent in incoming with an Array-kind value, the append and
prepend directives (valid for the Array-kind incoming value) are silently
ignored with no error, keeping the base value; an unrecognized directive
token is rejected with the parse error InvalidCommand. -/
theorem kind_mismatch_other_directive_amended (base av bv : Object)
    (k kd : String) (hbk : base.Kind = Kind.map)
    (hb : getVal base.Map k = some bv) (hbv : bv.Kind = Kind.map)
    (hav : av.Kind = Kind.array) :
    ((getCmd kd = .ok ⟨k, cmdAppend, false⟩ ∨
      getCmd kd = .ok ⟨k, cmdPrepend, false⟩) →
      base.merge command.zero (.mk [] [] [(kd, av)] .null false) =
        ⟨base.setSecret false, none, base⟩) ∧
    (∀ e, getCmd kd = .error e →
      base.merge command.zero (.mk [] [] [(kd, av)] .null false) =
        ⟨Object.zero, some e, base⟩) := by
  constructor
  · intro hkd
    have h1 : getValidCmd kd av = .ok ⟨k, cmdAppend, false⟩ ∨
        getValidCmd kd av = .ok ⟨k, cmdPrepend, false⟩ := by
      rcases hkd with hkd | hkd
      · exact Or.inl (by simp [getValidCmd, hkd, hav, legalCmds, cmdAppend])
      · exact Or.inr (by simp [getValidCmd, hkd, hav, legalCmds, cmdPrepend])
    simp only [Object.merge, hbk, reduceCtorEq, if_false, if_true, reduceIte,
      show command.zero.cmd = "" from rfl, or_true, Map_mk]
    rcases h1 with h1 | h1 <;>
      simp only [spliceLoop, h1, hb, hbv, hav, reduceCtorEq, if_false,
        reduceIte] <;>
      simp [command.zero, cmdAppend, cmdPrepend, cmdSplice, cmdReplace,
        cmdKeep, cmdFail, setMap_self]
  · intro e hkd
    have h1 : getValidCmd kd av = .error e := by
      simp [getValidCmd, hkd]
    simp only [Object.merge, hbk, reduceCtorEq, if_false, if_true, reduceIte,
      show command.zero.cmd = "" from rfl, or_true, Map_mk]
    simp only [spliceLoop, h1, setMap_self]

/-- C3 witness: the append directive at a concrete kind mismatch silently
keeps the base value with no error. -/
theorem kind_mismatch_other_directive_witness :
    (Object.mk [] [] [("k", mVal)] .null false).merge command.zero
      (.mk [] [] [("k((append))", aVal)] .null false) =
      ⟨.mk [] [] [("k", mVal)] .null false, none,
       .mk [] [] [("k", mVal)] .null false⟩ := by
  have h := (kind_mismatch_other_directive_amended
    (.mk [] [] [("k", mVal)] .null false) aVal mVal "k" "k((append))"
    (by decide)
    (by simp [getVal, Object.Map])
    (by decide) (by decide)).1
    (Or.inl (by rw [show getCmd "k((append))" =
      Except.ok ⟨"k", "append", false⟩ from rfl, cmdAppend]))
  simpa [Object.setSecret] using h

/-- The Map field after setMap. -/
@[simp] theorem Map_setMap (o : Object) (m : List (String × Object)) :
    (o.setMap m).Map = m := by
  cases o
  rfl

/-- The Map field after setSecret. -/
@[simp] theorem Map_setSecret (o : Object) (b : Bool) :
    (o.setSecret b).Map = o.Map := by
  cases o
  rfl

/-- Two consecutive setMap calls keep the last Map. -/
@[simp] theorem setMap_setMap (o : Object) (a b : List (String × Object)) :
    (o.setMap a).setMap b = o.setMap b := by
  cases o
  rfl

/-- Every successful exit of the splice loop returns the receiver with some
final map, secret taken from the command, and the post state is exactly the
receiver carrying that same map. -/
theorem spliceLoop_ok_shape :
    ∀ (entries : List (String × Object)) (obj : Object) (cmd : command)
      (m : List (String × Object)),
      (spliceLoop obj cmd m entries).err = none →
      ∃ m2, spliceLoop obj cmd m entries =
        ⟨(obj.setMap m2).setSecret cmd.secret, none, obj.setMap m2⟩ := by
  intro entries
  induction entries with
  | nil => intro obj cmd m h; exact ⟨m, by simp [spliceLoop]⟩
  | cons p rest ih =>
    intro obj cmd m h
    obtain ⟨key, val⟩ := p
    rcases hg : getValidCmd key val with e | newCmd <;>
      simp only [spliceLoop, hg] at h ⊢
    · simp at h
    · rcases hv : getVal m newCmd.final with _ | existing <;>
        simp only [hv] at h ⊢
      · rcases hr : val.resolveCommands newCmd.secret with ⟨v', e?⟩
        rcases e? with _ | e <;> simp only [hr] at h ⊢
        · exact ih _ _ _ h
        · simp at h
      · by_cases hk : existing.Kind = val.Kind
        · rw [if_pos hk] at h ⊢
          rcases hm : existing.merge newCmd val with ⟨r0, e?, p0⟩
          rcases e? with _ | e <;> simp only [hm] at h ⊢
          · exact ih _ _ _ h
          · simp at h
        · rw [if_neg hk] at h ⊢
          by_cases h1 : newCmd.cmd = cmdSplice ∨ newCmd.cmd = cmdReplace ∨
              newCmd.cmd = ""
          · rw [if_pos h1] at h ⊢
            rcases hr : val.resolveCommands newCmd.secret with ⟨v', e?⟩
            rcases e? with _ | e <;> simp only [hr] at h ⊢
            · exact ih _ _ _ h
            · simp at h
          · rw [if_neg h1] at h ⊢
            by_cases h2 : newCmd.cmd = cmdKeep
            · rw [if_pos h2] at h ⊢
              exact ih _ _ _ h
            · rw [if_neg h2] at h ⊢
              by_cases h3 : newCmd.cmd = cmdFail
              · rw [if_pos h3] at h; simp at h
              · rw [if_neg h3] at h ⊢
                exact ih _ _ _ h

/-- C7: the spec claims Merge leaves the base tree unchanged.  The code
refutes this: the splice merge writes the incoming entries into the base
Go map in place, so after the call the caller sees the new key in the base
tree. -/
theorem merge_frame_counterexample :
    ((Object.mk [] [] [("a", leaf 1)] .null false).Merge
      (.mk [] [] [("b", leaf 2)] .null false)).post ≠
      .mk [] [] [("a", leaf 1)] .null false := by
  simp [Object.Merge, scanClear, Object.Map, Object.merge, kindOf,
    command.zero, spliceLoop, getValidCmd, legalCmds, Object.Kind, getVal,
    setKey, Object.setMap, Object.Array, Object.Origins, Object.Value,
    Object.secret, Object.setSecret, leaf, cmdClear, cmdReplace, cmdKeep,
    cmdFail, cmdSplice, cmdAppend, cmdPrepend, cmdSecret,
    Object.resolveCommands, resolveArray, resolveMap, Object.zero,
    show getCmd "b" = Except.ok ⟨"b", "", false⟩ from rfl]

/-- C7 amended: AlterKeyCase, ToRedacted and ResolveCommands build fresh
trees, but merge on a Map-kind base mutates the base Go map in place:
after a successful default-directive merge the caller-visible base tree is
exactly the base with its Map replaced by the Map of the returned tree. -/
theorem merge_mutates_base_map_amended (base next : Object)
    (hk : base.Kind = Kind.map)
    (he : (base.merge command.zero next).err = none) :
    (base.merge command.zero next).post =
      base.setMap ((base.merge command.zero next).res.Map) := by
  simp only [Object.merge, hk, reduceCtorEq, if_false, if_true, reduceIte,
    show command.zero.cmd = "" from rfl, or_true, if_pos] at he ⊢
  obtain ⟨m2, hm⟩ := spliceLoop_ok_shape next.Map base command.zero base.Map he
  rw [hm]
  simp

/-- C7 witness: the amended mutation statement evaluated at a concrete
merge that inserts one new key. -/
theorem merge_mutates_base_map_witness :
    ((Object.mk [] [] [("a", leaf 1)] .null false).merge command.zero
      (.mk [] [] [("b", leaf 2)] .null false)).post =
      (Object.mk [] [] [("a", leaf 1)] .null false).setMap
        (((Object.mk [] [] [("a", leaf 1)] .null false).merge command.zero
          (.mk [] [] [("b", leaf 2)] .null false)).res.Map) :=
  merge_mutates_base_map_amended _ _ (by decide) (by
    simp [Object.merge, kindOf, command.zero, spliceLoop, getValidCmd,
      legalCmds, Object.Kind, getVal, setKey, Object.setMap, Object.Array,
      Object.Map, Object.Origins, Object.Value, Object.secret,
      Object.setSecret, leaf, cmdClear, cmdReplace, cmdKeep, cmdFail,
      cmdSplice, cmdAppend, cmdPrepend, cmdSecret, Object.resolveCommands,
      resolveArray, resolveMap, Object.zero,
      show getCmd "b" = Except.ok ⟨"b", "", false⟩ from rfl])

/-- C10: the spec claims that for a Value-kind base, any incoming tree with
no clear directive among its direct keys is returned exactly as passed in.
The code refutes this: a direct key with an unrecognized directive token
makes the clear scan fail with InvalidCommand instead. -/
theorem value_base_returns_incoming_counterexample :
    hasClearKey [("x((bogus))", leaf 1)] = false ∧
    (Object.zero.Merge (.mk [] [] [("x((bogus))", leaf 1)] .null false)).err =
      some .invalidCommand := by
  constructor
  · decide
  · simp [Object.Merge, scanClear, Object.Map,
      show getCmd "x((bogus))" = Except.error .invalidCommand from rfl]

/-- C10 amended: for a Value-kind base and an incoming tree all of whose
direct Map keys parse to commands none of which is clear, Merge returns the
incoming tree exactly as passed in, with only the root secret flag forced to
false, and the base is untouched. -/
theorem value_base_returns_incoming_amended (base next : Object)
    (hp : keysParseNoClear next.Map = true)
    (hk : base.Kind = Kind.value) :
    base.Merge next = ⟨next.setSecret false, none, base⟩ := by
  have hs := scanClear_of_keysParseNoClear _ hp
  simp only [Object.Merge, hs]
  simp only [Object.merge, hk, reduceCtorEq, if_false, if_true, reduceIte,
    show command.zero.cmd = "" from rfl, or_true, if_pos,
    show command.zero.secret = false from rfl]

/-- C10 witness: a secret-rooted incoming tree with an unresolved
directive-bearing key is returned as is, secret flag reset. -/
theorem value_base_returns_incoming_witness :
    Object.zero.Merge (.mk [] [] [("a((secret))", leaf 1)] .null true) =
      ⟨.mk [] [] [("a((secret))", leaf 1)] .null false, none, Object.zero⟩ :=
  value_base_returns_incoming_amended _ _ (by decide) (by decide)

/-- C4: the spec claims that whenever any direct incoming key parses to
clear, Merge returns the empty tree with no error.  The code refutes this:
if another direct key fails to parse and is scanned first, Merge returns
InvalidCommand even though a clear key is present. -/
theorem clear_absolutism_counterexample :
    hasClearKey [("a((bogus))", leaf 1), ("b((clear))", leaf 2)] = true ∧
    ((Object.mk [] [] [("x", leaf 3)] .null false).Merge
      (.mk [] [] [("a((bogus))", leaf 1), ("b((clear))", leaf 2)]
        .null false)).err = some .invalidCommand := by
  constructor
  · decide
  · simp [Object.Merge, scanClear, Object.Map,
      show getCmd "a((bogus))" = Except.error .invalidCommand from rfl]

/-- C4 amended: if every direct incoming key parses to a command and some
key carries the clear directive, Merge returns the empty tree, no error,
and leaves the base untouched, regardless of the content of either tree. -/
theorem clear_absolutism_amended (base next : Object)
    (hp : keysParse next.Map = true) (hc : hasClearKey next.Map = true) :
    base.Merge next = ⟨.mk [] [] [] .null false, none, base⟩ := by
  have hs := scanClear_of_hasClearKey _ hp hc
  simp [Object.Merge, hs]

/-- C4 witness: a clear key wipes a nonempty base with no error. -/
theorem clear_absolutism_witness :
    ((Object.mk [] [] [("x", leaf 3)] .null true).Merge
      (.mk [] [] [("a", leaf 1), ("b((clear))", leaf 2)] .null false)) =
      ⟨.mk [] [] [] .null false, none, .mk [] [] [("x", leaf 3)] .null true⟩ :=
  clear_absolutism_amended _ _ (by decide) (by decide)

/-- C6: the spec claims the merged Array is the base elements followed by
the incoming elements as passed.  The code refutes this: the incoming array
is command-resolved first, so a directive-bearing key inside an incoming
element is rewritten before concatenation. -/
theorem array_merge_order_counterexample :
    ((Object.mk [] [leaf 1] [] .null false).merge command.zero
      (.mk [] [.mk [] [] [("a((secret))", leaf 2)] .null false] []
        .null false)).res.Array ≠
      (Object.mk [] [leaf 1] [] .null false).Array ++
      (Object.mk [] [.mk [] [] [("a((secret))", leaf 2)] .null false] []
        .null false).Array := by
  simp [Object.merge, kindOf, command.zero, Object.Kind, Object.Array,
    Object.Map, Object.Origins, Object.Value, Object.secret, Object.setSecret,
    leaf, cmdClear, cmdReplace, cmdKeep, cmdFail, cmdSplice, cmdAppend,
    cmdPrepend, cmdSecret, Object.resolveCommands, resolveArray, resolveMap,
    getValidCmd, legalCmds, getVal, setKey, Object.zero,
    show getCmd "a((secret))" = Except.ok ⟨"a", "", true⟩ from rfl]

/-- C6 amended: for an Array-kind base whose incoming tree resolves without
error, the default or append directive concatenates base elements and
Origins with those of the resolved incoming tree in that order, and prepend
concatenates them in the opposite order; the base is untouched. -/
theorem array_merge_order_amended (base : Object) (cmd : command)
    (next nr : Object) (hk : base.Kind = Kind.array)
    (hr : next.resolveCommands base.secret = (nr, none)) :
    ((cmd.cmd = "" ∨ cmd.cmd = cmdAppend) →
      base.merge cmd next =
        ⟨.mk (base.Origins ++ nr.Origins) (base.Array ++ nr.Array) base.Map
          base.Value (base.secret || nr.secret || cmd.secret), none, base⟩) ∧
    (cmd.cmd = cmdPrepend →
      base.merge cmd next =
        ⟨.mk (nr.Origins ++ base.Origins) (nr.Array ++ base.Array) base.Map
          base.Value (base.secret || nr.secret || cmd.secret), none,
         base⟩) := by
  constructor
  · intro hc
    simp only [Object.merge, hk, reduceCtorEq, if_false, if_true, reduceIte,
      hr, Option.isSome_none, Bool.false_eq_true]
    rcases hc with hc | hc <;> simp [hc]
  · intro hc
    have hne : ¬(cmd.cmd = cmdAppend ∨ cmd.cmd = "") := by
      simp [hc, cmdAppend, cmdPrepend]
    simp only [Object.merge, hk, reduceCtorEq, if_false, if_true, reduceIte,
      hr, Option.isSome_none, Bool.false_eq_true]
    simp [hne, hc, cmdAppend, cmdPrepend, cmdReplace, cmdKeep, cmdFail]

/-- C6 witness: merging Array of leaves 1 and 2 with Array of leaves 3 and 4
under the default directive appends in order. -/
theorem array_merge_order_witness :
    (Object.mk [] [leaf 1, leaf 2] [] .null false).merge command.zero
      (.mk [] [leaf 3, leaf 4] [] .null false) =
      ⟨.mk [] [leaf 1, leaf 2, leaf 3, leaf 4] [] .null false, none,
       .mk [] [leaf 1, leaf 2] [] .null false⟩ := by
  have h := (array_merge_order_amended
    (Object.mk [] [leaf 1, leaf 2] [] .null false) command.zero
    (.mk [] [leaf 3, leaf 4] [] .null false)
    (.mk [] [leaf 3, leaf 4] [] .null false)
    (by decide)
    (by simp [Object.resolveCommands, resolveArray, Object.Kind, kindOf, leaf,
      Object.Array, Object.Map, Object.Origins, Object.Value,
      Object.secret])).1 (Or.inl rfl)
  simpa [Object.Origins, Object.Array, Object.Map, Object.Value,
    Object.secret, leaf] using h

/-- Entries of a list avoided by keyAbsent have keys different from the
avoided key. -/
theorem key_ne_of_keyAbsent :
    ∀ (l : List (String × Object)) (k k2 : String) (v2 : Object),
      keyAbsent k l = true → (k2, v2) ∈ l → ¬(k2 = k) := by
  intro l k k2 v2 h hm
  induction l with
  | nil => simp at hm
  | cons p rest ih =>
    obtain ⟨k0, v0⟩ := p
    simp only [keyAbsent, Bool.and_eq_true, Bool.not_eq_eq_eq_not,
      Bool.not_true, decide_eq_false_iff_not] at h
    rcases List.mem_cons.mp hm with he | hm2
    · injection he with h1 h2
      subst h1
      exact h.1
    · exact ih h.2 hm2

/-- keyAbsent distributes over list append. -/
theorem keyAbsent_append (k : String) :
    ∀ (l1 l2 : List (String × Object)),
      keyAbsent k (l1 ++ l2) = (keyAbsent k l1 && keyAbsent k l2) := by
  intro l1 l2
  induction l1 with
  | nil => simp [keyAbsent]
  | cons p rest ih =>
    obtain ⟨k0, v0⟩ := p
    simp [keyAbsent, ih, Bool.and_assoc]

/-- setKey on a list that does not contain the key appends the binding. -/
theorem setKey_of_absent :
    ∀ (l : List (String × Object)) (k : String) (v : Object),
      keyAbsent k l = true → setKey l k v = l ++ [(k, v)] := by
  intro l k v h
  induction l with
  | nil => rfl
  | cons p rest ih =>
    obtain ⟨k0, v0⟩ := p
    simp only [keyAbsent, Bool.and_eq_true, Bool.not_eq_eq_eq_not,
      Bool.not_true, decide_eq_false_iff_not] at h
    simp only [setKey, if_neg h.1]
    rw [ih h.2]
    rfl

/-- alterMap with the identity transform on a list with distinct keys, all
of whose values are fixed points, appends the list unchanged. -/
theorem alterMap_id :
    ∀ (l acc : List (String × Object)),
      noDupKeys l = true →
      (∀ (k : String) (v : Object), (k, v) ∈ l → keyAbsent k acc = true) →
      (∀ (k : String) (v : Object), (k, v) ∈ l →
        v.AlterKeyCase (fun s => s) = v) →
      alterMap l (fun s => s) acc = acc ++ l := by
  intro l
  induction l with
  | nil => intro acc hn hd hv; simp [alterMap]
  | cons p rest ih =>
    intro acc hn hd hv
    obtain ⟨k, v⟩ := p
    simp only [noDupKeys, Bool.and_eq_true] at hn
    have hfix : v.AlterKeyCase (fun s => s) = v := hv k v (by simp)
    have habs : keyAbsent k acc = true := hd k v (by simp)
    simp only [alterMap, hfix, setKey_of_absent acc k v habs]
    rw [ih (acc ++ [(k, v)]) hn.2]
    · simp
    · intro k2 v2 hm2
      rw [keyAbsent_append]
      have h1 : keyAbsent k2 acc = true := hd k2 v2 (by simp [hm2])
      have h2 : ¬(k2 = k) := key_ne_of_keyAbsent rest k k2 v2 hn.1 hm2
      simp [keyAbsent, h1]
      intro hk
      exact absurd hk.symm h2
    · intro k2 v2 hm2
      exact hv k2 v2 (by simp [hm2])

/-- alterArray with a transform that fixes every element is the identity. -/
theorem alterArray_congr :
    ∀ (xs : List Object),
      (∀ x ∈ xs, x.AlterKeyCase (fun s => s) = x) →
      alterArray xs (fun s => s) = xs := by
  intro xs h
  induction xs with
  | nil => simp [alterArray]
  | cons x rest ih =>
    simp only [alterArray, h x (by simp)]
    rw [ih]
    intro y hy
    exact h y (by simp [hy])

/-- Elements of an array passing wfArray are themselves well formed. -/
theorem wf_of_mem_wfArray :
    ∀ (xs : List Object) (x : Object), wfArray xs = true → x ∈ xs →
      x.WF = true := by
  intro xs x h hm
  induction xs with
  | nil => simp at hm
  | cons y rest ih =>
    simp only [wfArray, Bool.and_eq_true] at h
    rcases List.mem_cons.mp hm with he | hm2
    · exact he ▸ h.1
    · exact ih h.2 hm2

/-- Values of a map passing wfMap are themselves well formed. -/
theorem wf_of_mem_wfMap :
    ∀ (l : List (String × Object)) (k : String) (v : Object),
      wfMap l = true → (k, v) ∈ l → v.WF = true := by
  intro l k v h hm
  induction l with
  | nil => simp at hm
  | cons p rest ih =>
    obtain ⟨k0, v0⟩ := p
    simp only [wfMap, Bool.and_eq_true] at h
    rcases List.mem_cons.mp hm with he | hm2
    · injection he with h1 h2
      subst h2
      exact h.1
    · exact ih h.2 hm2

/-- AlterKeyCase with the identity transform is the identity on every
well-formed tree. -/
theorem alter_id_of_WF :
    ∀ (t : Object), t.WF = true → t.AlterKeyCase (fun s => s) = t
  | .mk o a m v s, h => by
    have hw : wfArray a = true ∧ wfMap m = true ∧ noDupKeys m = true := by
      simpa [Object.WF, Object.Array, Object.Map, Bool.and_eq_true,
        and_assoc] using h
    by_cases ha : (Object.mk o a m v s).Kind = Kind.array
    · rw [Object.AlterKeyCase, if_pos ha]
      have harr : alterArray a (fun s => s) = a :=
        alterArray_congr a (fun x hx =>
          alter_id_of_WF x (wf_of_mem_wfArray a x hw.1 hx))
      simp [Object.Origins, Object.Array, Object.Map, Object.Value,
        Object.secret, harr]
    · by_cases hmm : (Object.mk o a m v s).Kind = Kind.map
      · rw [Object.AlterKeyCase, if_neg ha, if_pos hmm]
        have hmap : alterMap m (fun s => s) [] = [] ++ m :=
          alterMap_id m [] hw.2.2 (fun k2 v2 hm2 => rfl)
            (fun k2 v2 hm2 =>
              alter_id_of_WF v2 (wf_of_mem_wfMap m k2 v2 hw.2.1 hm2))
        simp only [List.nil_append] at hmap
        simp [Object.Origins, Object.Array, Object.Map, Object.Value,
          Object.secret, hmap]
      · rw [Object.AlterKeyCase, if_neg ha, if_neg hmm]
termination_by t => sizeOf t
decreasing_by
  · have h1 := List.sizeOf_lt_of_mem hx
    simp
    omega
  · have h1 := List.sizeOf_lt_of_mem hm2
    simp at h1 ⊢
    omega

/-- C9: AlterKeyCase applied with a nil transform function is a no-op on
every Go-representable tree: the always-present option sanitizes nil to the
identity, and the identity rebuild returns the tree unchanged. -/
theorem alterKeyCase_nil_noop (t : Object) (h : t.WF = true) :
    alterKeyCaseOption none t = t := by
  show t.AlterKeyCase (fun s => s) = t
  exact alter_id_of_WF t h

/-- C9 witness: a nil transform leaves a concrete nested tree untouched. -/
theorem alterKeyCase_nil_noop_witness :
    alterKeyCaseOption none
      (.mk [] [] [("a", leaf 1), ("b", .mk [] [leaf 2] [] .null false),
        ("c", mapOne "d" (leaf 3))] .null true) =
      .mk [] [] [("a", leaf 1), ("b", .mk [] [leaf 2] [] .null false),
        ("c", mapOne "d" (leaf 3))] .null true :=
  alterKeyCase_nil_noop _ (by
    simp [Object.WF, wfArray, wfMap, noDupKeys, keyAbsent, Object.Array,
      Object.Map, leaf, mapOne])

/-- Entries of a raw map avoided by keyAbsentA have keys different from the
avoided key. -/
theorem key_ne_of_keyAbsentA :
    ∀ (l : List (String × Any)) (k k2 : String) (a2 : Any),
      keyAbsentA k l = true → (k2, a2) ∈ l → ¬(k2 = k) := by
  intro l k k2 a2 h hm
  induction l with
  | nil => simp at hm
  | cons p rest ih =>
    obtain ⟨k0, a0⟩ := p
    simp only [keyAbsentA, Bool.and_eq_true, Bool.not_eq_eq_eq_not,
      Bool.not_true, decide_eq_false_iff_not] at h
    rcases List.mem_cons.mp hm with he | hm2
    · injection he with h1 h2
      subst h1
      exact h.1
    · exact ih h.2 hm2

/-- keyAbsentA of the raw image of a map agrees with keyAbsent. -/
theorem keyAbsentA_toRawMap :
    ∀ (m : List (String × Object)) (k : String),
      keyAbsentA k (toRawMap m) = keyAbsent k m := by
  intro m k
  induction m with
  | nil => simp [toRawMap, keyAbsentA, keyAbsent]
  | cons p rest ih =>
    obtain ⟨k0, v0⟩ := p
    simp [toRawMap, keyAbsentA, keyAbsent, ih]

/-- noDupKeysA of the raw image of a map agrees with noDupKeys. -/
theorem noDupKeysA_toRawMap :
    ∀ (m : List (String × Object)),
      noDupKeysA (toRawMap m) = noDupKeys m := by
  intro m
  induction m with
  | nil => simp [toRawMap, noDupKeysA, noDupKeys]
  | cons p rest ih =>
    obtain ⟨k0, v0⟩ := p
    simp [toRawMap, noDupKeysA, noDupKeys, ih, keyAbsentA_toRawMap]

/-- keyAbsent after a setKey write. -/
theorem keyAbsent_setKey :
    ∀ (m : List (String × Object)) (k k2 : String) (v : Object),
      keyAbsent k2 (setKey m k v) =
        (keyAbsent k2 m && !(k = k2 : Bool)) := by
  intro m k k2 v
  induction m with
  | nil => simp [setKey, keyAbsent]
  | cons p rest ih =>
    obtain ⟨k0, v0⟩ := p
    by_cases h0 : k0 = k
    · subst h0
      simp only [setKey, if_pos rfl, keyAbsent]
      by_cases h2 : (k0 = k2)
      · simp [h2]
      · simp [h2, ih]
    · simp only [setKey, if_neg h0, keyAbsent, ih, Bool.and_assoc]

/-- setKey preserves distinct keys. -/
theorem noDupKeys_setKey :
    ∀ (m : List (String × Object)) (k : String) (v : Object),
      noDupKeys m = true → noDupKeys (setKey m k v) = true := by
  intro m k v h
  induction m with
  | nil => simp [setKey, noDupKeys, keyAbsent]
  | cons p rest ih =>
    obtain ⟨k0, v0⟩ := p
    simp only [noDupKeys, Bool.and_eq_true] at h
    by_cases h0 : k0 = k
    · subst h0
      simp only [setKey, if_pos rfl, noDupKeys, Bool.and_eq_true]
      exact ⟨h.1, h.2⟩
    · simp only [setKey, if_neg h0, noDupKeys, Bool.and_eq_true,
        keyAbsent_setKey]
      refine ⟨?_, ih h.2⟩
      simp [h.1]
      intro hk
      exact absurd hk.symm h0

/-- Bindings built by fromRawMap keep distinct keys. -/
theorem noDupKeys_fromRawMap :
    ∀ (xs : List (String × Any)) (acc : List (String × Object)),
      noDupKeys acc = true → noDupKeys (fromRawMap xs acc) = true := by
  intro xs
  induction xs with
  | nil => intro acc h; simpa [fromRawMap] using h
  | cons p rest ih =>
    intro acc h
    obtain ⟨k, a⟩ := p
    simp only [fromRawMap]
    exact ih _ (noDupKeys_setKey acc k _ h)

/-- Membership after a setKey write. -/
theorem mem_setKey :
    ∀ (m : List (String × Object)) (k k2 : String) (v v2 : Object),
      (k2, v2) ∈ setKey m k v → (k2, v2) ∈ m ∨ (k2 = k ∧ v2 = v) := by
  intro m k k2 v v2 h
  induction m with
  | nil =>
    simp only [setKey, List.mem_singleton] at h
    injection h with h1 h2
    exact Or.inr ⟨h1, h2⟩
  | cons p rest ih =>
    obtain ⟨k0, v0⟩ := p
    by_cases h0 : k0 = k
    · subst h0
      simp only [setKey, if_pos rfl] at h
      rcases List.mem_cons.mp h with he | hm
      · injection he with h1 h2
        exact Or.inr ⟨h1, h2⟩
      · exact Or.inl (List.mem_cons_of_mem _ hm)
    · simp only [setKey, if_neg h0] at h
      rcases List.mem_cons.mp h with he | hm
      · exact Or.inl (he ▸ List.mem_cons_self _ _)
      · rcases ih hm with hh | hh
        · exact Or.inl (List.mem_cons_of_mem _ hh)
        · exact Or.inr hh

/-- Every binding built by fromRawMap is the conversion of a raw entry,
unless it was already in the accumulator. -/
theorem mem_fromRawMap :
    ∀ (xs : List (String × Any)) (acc : List (String × Object))
      (k : String) (v : Object),
      (k, v) ∈ fromRawMap xs acc →
      (k, v) ∈ acc ∨ ∃ a, (k, a) ∈ xs ∧ v = ObjectFromRaw a := by
  intro xs
  induction xs with
  | nil =>
    intro acc k v h
    simp only [fromRawMap] at h
    exact Or.inl h
  | cons p rest ih =>
    intro acc k v h
    obtain ⟨k0, a0⟩ := p
    simp only [fromRawMap] at h
    rcases ih _ _ _ h with hacc | ⟨a, hma, hv⟩
    · rcases mem_setKey _ _ _ _ _ hacc with hm | ⟨hk, hv⟩
      · exact Or.inl hm
      · exact Or.inr ⟨a0, by simp [hk], hv⟩
    · exact Or.inr ⟨a, List.mem_cons_of_mem _ hma, hv⟩

/-- fromRawMap over raw entries with distinct keys that avoid the
accumulator appends the converted entries in order. -/
theorem fromRawMap_eq_map :
    ∀ (xs : List (String × Any)) (acc : List (String × Object)),
      noDupKeysA xs = true →
      (∀ (k : String) (a : Any), (k, a) ∈ xs → keyAbsent k acc = true) →
      fromRawMap xs acc =
        acc ++ xs.map (fun p => (p.1, ObjectFromRaw p.2)) := by
  intro xs
  induction xs with
  | nil => intro acc hn hd; simp [fromRawMap]
  | cons p rest ih =>
    intro acc hn hd
    obtain ⟨k, a⟩ := p
    simp only [noDupKeysA, Bool.and_eq_true] at hn
    have habs : keyAbsent k acc = true := hd k a (by simp)
    simp only [fromRawMap, setKey_of_absent acc k _ habs]
    rw [ih (acc ++ [(k, ObjectFromRaw a)]) hn.2]
    · simp
    · intro k2 a2 hm2
      rw [keyAbsent_append]
      have h1 : keyAbsent k2 acc = true := hd k2 a2 (by simp [hm2])
      have h2 : ¬(k2 = k) := key_ne_of_keyAbsentA rest k k2 a2 hn.1 hm2
      simp [keyAbsent, h1]
      intro hk
      exact absurd hk.symm h2

/-- setKey never returns the empty list. -/
theorem setKey_ne_nil :
    ∀ (m : List (String × Object)) (k : String) (v : Object),
      setKey m k v ≠ [] := by
  intro m k v
  cases m with
  | nil => simp [setKey]
  | cons p rest =>
    obtain ⟨k0, v0⟩ := p
    by_cases h0 : k0 = k <;> simp [setKey, h0]

/-- fromRawMap of a nonempty raw list or onto a nonempty accumulator is
nonempty. -/
theorem fromRawMap_ne_nil :
    ∀ (xs : List (String × Any)) (acc : List (String × Object)),
      (acc ≠ [] ∨ xs ≠ []) → fromRawMap xs acc ≠ [] := by
  intro xs
  induction xs with
  | nil =>
    intro acc h
    rcases h with h | h
    · simpa [fromRawMap] using h
    · exact absurd rfl h
  | cons p rest ih =>
    intro acc h
    obtain ⟨k, a⟩ := p
    simp only [fromRawMap]
    exact ih _ (Or.inl (setKey_ne_nil _ _ _))

/-- toRawMap is a value-wise map. -/
theorem toRawMap_eq_map :
    ∀ (m : List (String × Object)),
      toRawMap m = m.map (fun p => (p.1, p.2.ToRaw)) := by
  intro m
  induction m with
  | nil => simp [toRawMap]
  | cons p rest ih =>
    obtain ⟨k, v⟩ := p
    simp [toRawMap, ih]

/-- toRawArray is a map. -/
theorem toRawArray_eq_map :
    ∀ (xs : List Object), toRawArray xs = xs.map Object.ToRaw := by
  intro xs
  induction xs with
  | nil => simp [toRawArray]
  | cons x rest ih => simp [toRawArray, ih]

/-- fromRawArray is a map. -/
theorem fromRawArray_eq_map :
    ∀ (xs : List Any), fromRawArray xs = xs.map ObjectFromRaw := by
  intro xs
  induction xs with
  | nil => simp [fromRawArray]
  | cons x rest ih => simp [fromRawArray, ih]

/-- toShapeArray of two pointwise shape-equal images agree. -/
theorem toShapeArray_map_congr :
    ∀ (xs : List Any) (g h : Any → Object),
      (∀ a ∈ xs, (g a).toShape = (h a).toShape) →
      toShapeArray (xs.map g) = toShapeArray (xs.map h) := by
  intro xs g h hp
  induction xs with
  | nil => simp
  | cons x rest ih =>
    simp only [List.map_cons, toShapeArray]
    rw [hp x (by simp), ih]
    intro a ha
    exact hp a (by simp [ha])

/-- toShapeMap of a value-wise image whose values are shape-fixed agrees
with the original. -/
theorem toShapeMap_map_congr :
    ∀ (l : List (String × Object)) (g : Object → Object),
      (∀ (k : String) (v : Object), (k, v) ∈ l → (g v).toShape = v.toShape) →
      toShapeMap (l.map (fun p => (p.1, g p.2))) = toShapeMap l := by
  intro l g hp
  induction l with
  | nil => simp
  | cons p rest ih =>
    obtain ⟨k, v⟩ := p
    simp only [List.map_cons, toShapeMap]
    rw [hp k v (by simp), ih]
    intro k2 v2 hm2
    exact hp k2 v2 (by simp [hm2])

/-- ObjectFromRaw on a raw sequence. -/
theorem fromRaw_arr (xs : List Any) :
    ObjectFromRaw (.arr xs) = .mk [] (fromRawArray xs) [] .null false := by
  simp [ObjectFromRaw]

/-- ObjectFromRaw on a raw map. -/
theorem fromRaw_map (xs : List (String × Any)) :
    ObjectFromRaw (.map xs) = .mk [] [] (fromRawMap xs []) .null false := by
  simp [ObjectFromRaw]

/-- ToRaw of an Array-built node. -/
theorem toRaw_arrObj (ys : List Object) (hy : ys ≠ []) :
    (Object.mk [] ys [] .null false).ToRaw = .arr (toRawArray ys) := by
  simp [Object.ToRaw, Object.Kind, kindOf, Object.Array, Object.Map,
    List.length_pos.mpr hy]

/-- ToRaw of a Map-built node. -/
theorem toRaw_mapObj (m : List (String × Object)) (hm : m ≠ []) :
    (Object.mk [] [] m .null false).ToRaw = .map (toRawMap m) := by
  simp [Object.ToRaw, Object.Kind, kindOf, Object.Array, Object.Map,
    List.length_pos.mpr hm]

/-- ToRaw of a Value-built node. -/
theorem toRaw_valObj (v : Any) :
    (Object.mk [] [] [] v false).ToRaw = v := by
  simp [Object.ToRaw, Object.Kind, kindOf, Object.Array, Object.Map,
    Object.Value]

/-- toShape of an Array-built node. -/
theorem toShape_arrObj (ys : List Object) (hy : ys ≠ []) :
    (Object.mk [] ys [] .null false).toShape = .arr (toShapeArray ys) := by
  simp [Object.toShape, Object.Kind, kindOf, Object.Array, Object.Map,
    List.length_pos.mpr hy]

/-- toShape of a Map-built node. -/
theorem toShape_mapObj (m : List (String × Object)) (hm : m ≠ []) :
    (Object.mk [] [] m .null false).toShape = .map (toShapeMap m) := by
  simp [Object.toShape, Object.Kind, kindOf, Object.Array, Object.Map,
    List.length_pos.mpr hm]

/-- toShape of a Value-built node. -/
theorem toShape_valObj (v : Any) :
    (Object.mk [] [] [] v false).toShape = .val v := by
  simp [Object.toShape, Object.Kind, kindOf, Object.Array, Object.Map,
    Object.Value]

/-- C8: for every tree built from a JSON-representable native value, the
raw round trip ObjectFromRaw(t.ToRaw()) is structurally equal to t modulo
Origins and the secret flag: the kind-directed shapes coincide. -/
theorem fromRaw_toRaw_roundtrip :
    ∀ (r : Any),
      (ObjectFromRaw ((ObjectFromRaw r).ToRaw)).toShape =
        (ObjectFromRaw r).toShape
  | .null => by
    simp [ObjectFromRaw, Object.ToRaw, Object.Kind, kindOf, Object.Array,
      Object.Map, Object.Value]
  | .str t => by
    simp [ObjectFromRaw, Object.ToRaw, Object.Kind, kindOf, Object.Array,
      Object.Map, Object.Value]
  | .int n => by
    simp [ObjectFromRaw, Object.ToRaw, Object.Kind, kindOf, Object.Array,
      Object.Map, Object.Value]
  | .bool b => by
    simp [ObjectFromRaw, Object.ToRaw, Object.Kind, kindOf, Object.Array,
      Object.Map, Object.Value]
  | .arr xs => by
    cases xs with
    | nil =>
      simp [ObjectFromRaw, Object.ToRaw, Object.Kind, kindOf, Object.Array,
        Object.Map, Object.Value, fromRawArray]
    | cons x rest =>
      have h1 : fromRawArray (x :: rest) ≠ [] := by
        simp [fromRawArray_eq_map]
      have h2 : fromRawArray (toRawArray (fromRawArray (x :: rest))) ≠ [] := by
        simp [fromRawArray_eq_map, toRawArray_eq_map]
      calc (ObjectFromRaw ((ObjectFromRaw (.arr (x :: rest))).ToRaw)).toShape
          = (ObjectFromRaw (.arr (toRawArray
              (fromRawArray (x :: rest))))).toShape := by
            rw [fromRaw_arr, toRaw_arrObj _ h1]
        _ = Shape.arr (toShapeArray (fromRawArray (toRawArray
              (fromRawArray (x :: rest))))) := by
            rw [fromRaw_arr, toShape_arrObj _ h2]
        _ = Shape.arr (toShapeArray ((x :: rest).map
              (fun a => ObjectFromRaw ((ObjectFromRaw a).ToRaw)))) := by
            simp [fromRawArray_eq_map, toRawArray_eq_map, List.map_map,
              Function.comp_def]
        _ = Shape.arr (toShapeArray ((x :: rest).map ObjectFromRaw)) := by
            rw [toShapeArray_map_congr (x :: rest) _ ObjectFromRaw
              (fun a ha => fromRaw_toRaw_roundtrip a)]
        _ = (ObjectFromRaw (.arr (x :: rest))).toShape := by
            rw [fromRaw_arr, toShape_arrObj _ h1, fromRawArray_eq_map]
  | .map l => by
    by_cases hM : fromRawMap l [] = []
    · simp [ObjectFromRaw, Object.ToRaw, Object.Kind, kindOf, Object.Array,
        Object.Map, Object.Value, hM]
    · have hnda : noDupKeysA (toRawMap (fromRawMap l [])) = true := by
        rw [noDupKeysA_toRawMap]
        exact noDupKeys_fromRawMap l [] rfl
      have htne : toRawMap (fromRawMap l []) ≠ [] := by
        simp [toRawMap_eq_map, hM]
      have h2 : fromRawMap (toRawMap (fromRawMap l [])) [] ≠ [] :=
        fromRawMap_ne_nil _ [] (Or.inr htne)
      calc (ObjectFromRaw ((ObjectFromRaw (.map l)).ToRaw)).toShape
          = (ObjectFromRaw (.map (toRawMap (fromRawMap l [])))).toShape := by
            rw [fromRaw_map, toRaw_mapObj _ hM]
        _ = Shape.map (toShapeMap (fromRawMap
              (toRawMap (fromRawMap l [])) [])) := by
            rw [fromRaw_map, toShape_mapObj _ h2]
        _ = Shape.map (toShapeMap ((fromRawMap l []).map
              (fun p => (p.1, ObjectFromRaw (p.2.ToRaw))))) := by
            rw [fromRawMap_eq_map _ [] hnda (fun k a hm => rfl),
              toRawMap_eq_map, List.map_map]
            simp [Function.comp_def]
        _ = Shape.map (toShapeMap (fromRawMap l [])) := by
            rw [toShapeMap_map_congr (fromRawMap l [])
              (fun v => ObjectFromRaw v.ToRaw)
              (fun k v hm => by
                rcases mem_fromRawMap l [] k v hm with hnil | ⟨a, hma, hv⟩
                · simp at hnil
                · subst hv
                  exact fromRaw_toRaw_roundtrip a)]
        _ = (ObjectFromRaw (.map l)).toShape := by
            rw [fromRaw_map, toShape_mapObj _ hM]
termination_by r => sizeOf r
decreasing_by
  · have h3 := List.sizeOf_lt_of_mem ha
    simp at h3 ⊢
    omega
  · have h3 := List.sizeOf_lt_of_mem hma
    simp at h3 ⊢
    omega

end Gestalt
